import Mathlib

/-!
Verification of the vendor-matching core of the Data Combiner & Vendor
Tagger repository.

The embedding follows the two source files that carry the matching logic:

* `src/dcvt/match.py` — `match_vendor(name, master, threshold, use_rapidfuzz)`:
  a guard for empty inputs, a primary path through
  `rapidfuzz.process.extractOne(name, master_list, scorer=fuzz.partial_ratio)`
  filtered by `match[1] >= threshold`, and a degraded path through
  `difflib.get_close_matches(name, master_list, n=1, cutoff=clamp(threshold/100))`.
* `src/data_combiner_vendor_tagger.py` — the per-sheet pipeline
  (lines 155–163): a RapidFuzz step, then `gpt_match` as fallback only when
  the fuzzy step left `vendor` empty and a key was supplied; `gpt_match`
  (lines 89–107) swallows every exception and accepts the model's reply only
  after `.strip()` and an exact membership test against `master`; and the
  master-list construction `df.iloc[:, 0].dropna().unique().tolist()`
  (line 86).

Scores and thresholds are modelled as rationals (the Python values are
floats on a 0–100 scale produced by exact rational formulas); external
library calls (`extractOne`, `get_close_matches`, the OpenAI client) are
embedded by their documented behaviour, parametric in the similarity
function where the claims quantify over scorer output, and concretely as
`partScore` (the normalized-indel partial-substring score of
`fuzz.partial_ratio`) where a claim depends on the actual scorer.
A possibly-failing oracle call is an `Except Unit String` value.
-/

namespace DCVT

/-- Binary maximum on the rationals, written with an explicit comparison
(as Python's `max`) so that concrete instances evaluate by kernel
reduction. -/
def qmax (a b : ℚ) : ℚ := if a ≤ b then b else a

/-- Binary minimum on the rationals, written with an explicit comparison
(as Python's `min`). -/
def qmin (a b : ℚ) : ℚ := if a ≤ b then a else b

/-- Longest common subsequence of two character lists, written with an
explicit fuel argument so that it is structurally recursive; `lcs` below
always supplies sufficient fuel (the sum of the lengths). This underlies
the normalized indel similarity of `rapidfuzz.fuzz.ratio`. -/
def lcsF : Nat → List Char → List Char → Nat
  | 0, _, _ => 0
  | _ + 1, [], _ => 0
  | _ + 1, _ :: _, [] => 0
  | n + 1, a :: as, b :: bs =>
    if a = b then lcsF n as bs + 1
    else max (lcsF n (a :: as) bs) (lcsF n as (b :: bs))

/-- Longest common subsequence of two character lists. -/
def lcs (a b : List Char) : Nat := lcsF (a.length + b.length) a b

/-- Normalized indel similarity on the 0–100 scale: the score
`rapidfuzz.fuzz.ratio` assigns to two strings, namely
`100 * (1 - indel_distance / (len a + len b))` with
`indel_distance = len a + len b - 2 * lcs a b`; both strings empty gives
100, as in RapidFuzz. -/
def indelScore (a b : List Char) : ℚ :=
  if a.length + b.length = 0 then 100
  else 200 * (lcs a b : ℚ) / ((a.length : ℚ) + (b.length : ℚ))

/-- Every contiguous substring (possibly empty) of a character list. -/
def substrings (l : List Char) : List (List Char) :=
  l.tails.flatMap List.inits

/-- Model of `rapidfuzz.fuzz.partial_ratio`: the best normalized indel
similarity of the shorter string against the contiguous substrings of the
longer one (RapidFuzz searches for the optimal alignment of the shorter
string inside the longer); when the shorter string is empty the score is
100 if both are empty and 0 otherwise, matching RapidFuzz's guard for
empty inputs. -/
def partScore (s1 s2 : String) : ℚ :=
  let a := s1.data
  let b := s2.data
  let sh := if a.length ≤ b.length then a else b
  let lo := if a.length ≤ b.length then b else a
  if sh.length = 0 then (if lo.length = 0 then 100 else 0)
  else ((substrings lo).map (indelScore sh)).foldl qmax 0

/-- One step of the best-candidate scan of
`rapidfuzz.process.extractOne`: keep the current best, replacing it only
on a strictly higher score (so the first of equally scored candidates
wins, as in RapidFuzz). -/
def eoStep (scorer : String → String → ℚ) (query : String)
    (best : Option (String × ℚ)) (c : String) : Option (String × ℚ) :=
  match best with
  | none => some (c, scorer query c)
  | some (b, s) => if s < scorer query c then some (c, scorer query c) else some (b, s)

/-- Model of `rapidfuzz.process.extractOne(query, choices, scorer=...)`
with its default cutoff: `none` on an empty choice list, otherwise the
first choice attaining the maximal score, paired with that score. -/
def extractOne (scorer : String → String → ℚ) (query : String)
    (choices : List String) : Option (String × ℚ) :=
  choices.foldl (eoStep scorer query) none

/-- One step of the maximum selection done by `heapq.nlargest(n, result)`
inside `difflib.get_close_matches`: candidates are compared as the pairs
`(ratio, string)`, so ties on the ratio are broken towards the
lexicographically larger string. -/
def gcmStep (sim : String → String → ℚ) (word : String)
    (best : Option String) (x : String) : Option String :=
  match best with
  | none => some x
  | some b =>
    if sim b word < sim x word ∨ (sim b word = sim x word ∧ b < x) then some x
    else some b

/-- The element of `l` maximizing the pair `(sim · word, ·)`, or `none`
for an empty list. -/
def bestBy (sim : String → String → ℚ) (word : String)
    (l : List String) : Option String :=
  l.foldl (gcmStep sim word) none

/-- Model of `difflib.get_close_matches(word, possibilities, n=1, cutoff)`:
keep the possibilities whose `SequenceMatcher` ratio against `word` reaches
the cutoff (difflib's `real_quick_ratio`/`quick_ratio` pre-tests are upper
bounds of `ratio`, so the filter is equivalent to `ratio ≥ cutoff`), then
return the single largest by `(ratio, string)`, as a list. The ratio
function of `SequenceMatcher` is external library code and is a parameter
`sim`, applied as `sim candidate word` (difflib sets `seq2 = word` and
`seq1` to each candidate). -/
def get_close_matches1 (sim : String → String → ℚ) (word : String)
    (poss : List String) (cutoff : ℚ) : List String :=
  match bestBy sim word (poss.filter fun x => decide (cutoff ≤ sim x word)) with
  | some b => [b]
  | none => []

/-- Embedding of `match_vendor` from `src/dcvt/match.py`. `scorer` stands
for `fuzz.partial_ratio` and `sim` for difflib's `SequenceMatcher` ratio;
`rfAvail` is the module-level `_RAPIDFUZZ` flag (also the truthiness of
`process and fuzz`), and `useRapidfuzz` the `use_rapidfuzz` argument whose
`None` default resolves to `_RAPIDFUZZ`. Thresholds are rationals; the
source annotates `threshold: int` but only compares it and divides it by
100. -/
def match_vendor (scorer sim : String → String → ℚ) (rfAvail : Bool)
    (name : String) (master : List String) (threshold : ℚ)
    (useRapidfuzz : Option Bool) : String :=
  if name = "" ∨ master = [] then ""
  else if useRapidfuzz.getD rfAvail && rfAvail then
    match extractOne scorer name master with
    | some (c, s) => if threshold ≤ s then c else ""
    | none => ""
  else
    let cutoff := qmax 0 (qmin 1 (threshold / 100))
    let ms := get_close_matches1 sim name master cutoff
    if ms = [] then "" else ms.headD ""

/-- Fallible list head, modelling Python's `matches[0]` subscript (which
raises `IndexError` on an empty list). -/
def headE : List String → Except String String
  | [] => Except.error "IndexError"
  | x :: _ => Except.ok x

/-- Variant of the `match_vendor` embedding in which the source's only
partial operation — the `matches[0]` subscript guarded by
`if matches else ""` — is modelled fallibly, to state that the function
never raises. -/
def match_vendorE (scorer sim : String → String → ℚ) (rfAvail : Bool)
    (name : String) (master : List String) (threshold : ℚ)
    (useRapidfuzz : Option Bool) : Except String String :=
  if name = "" ∨ master = [] then Except.ok ""
  else if useRapidfuzz.getD rfAvail && rfAvail then
    match extractOne scorer name master with
    | some (c, s) => if threshold ≤ s then Except.ok c else Except.ok ""
    | none => Except.ok ""
  else
    let cutoff := qmax 0 (qmin 1 (threshold / 100))
    let ms := get_close_matches1 sim name master cutoff
    if ms = [] then Except.ok "" else headE ms

/-- Python's `str.strip()` on the ASCII whitespace the claims exercise:
drop whitespace characters from both ends. -/
def pyStrip (s : String) : String :=
  ⟨((s.data.dropWhile Char.isWhitespace).reverse.dropWhile Char.isWhitespace).reverse⟩

/-- Embedding of `gpt_match` from `src/data_combiner_vendor_tagger.py`
(lines 89–107). The OpenAI round-trip — request, response field accesses
and `.strip()`, all inside the `try` block — is summarized by an
`Except Unit String` value: `Except.error` for any raised exception (the
`except Exception: return ""` arm), `Except.ok resp` for a reply whose
stripped content is `pyStrip resp`. The reply is accepted only when the
stripped string is exactly a member of `master`. The sheet name only
shapes the prompt, hence only the oracle's answer, and is absorbed into
the oracle value. -/
def gpt_match (master : List String) (oracle : Except Unit String) : String :=
  match oracle with
  | Except.error _ => ""
  | Except.ok resp =>
    let choice := pyStrip resp
    if choice ∈ master then choice else ""

/-- The RapidFuzz step of the per-sheet pipeline (lines 156–160): `vendor`
starts empty; if `process and fuzz` imported, `extractOne` runs and its
best candidate is kept only when its score reaches the threshold. -/
def fuzzy_vendor (rfAvail : Bool) (scorer : String → String → ℚ)
    (title : String) (master : List String) (threshold : ℚ) : String :=
  if rfAvail then
    match extractOne scorer title master with
    | some (c, s) => if threshold ≤ s then c else ""
    | none => ""
  else ""

/-- Result of one per-sheet matching pass, recording whether the GPT
fallback was invoked. -/
structure AppResult where
  vendor : String
  oracleInvoked : Bool

/-- Embedding of the per-sheet matching pipeline (lines 155–163 of
`src/data_combiner_vendor_tagger.py`): the RapidFuzz step, then
`if not vendor and gpt_available: vendor = gpt_match(ws.title)`. -/
def appMatch (rfAvail : Bool) (scorer : String → String → ℚ)
    (gptAvailable : Bool) (oracle : Except Unit String)
    (title : String) (master : List String) (threshold : ℚ) : AppResult :=
  let v := fuzzy_vendor rfAvail scorer title master threshold
  if v = "" && gptAvailable then
    { vendor := gpt_match master oracle, oracleInvoked := true }
  else
    { vendor := v, oracleInvoked := false }

/-- Model of `pandas.Series.dropna`: the vendor column is a list of cells,
`none` standing for a missing value (NaN); `dropna` keeps the present
ones. -/
def dropna (col : List (Option String)) : List String := col.filterMap id

/-- Model of `pandas.Series.unique` (exact, case-sensitive equality,
first occurrence kept), with an accumulator of already-seen values. -/
def uniqueAux : List String → List String → List String
  | _, [] => []
  | seen, x :: rest =>
    if x ∈ seen then uniqueAux seen rest else x :: uniqueAux (x :: seen) rest

/-- Embedding of the master-list construction
`df_vendors.iloc[:, 0].dropna().unique().tolist()` (line 86 of
`src/data_combiner_vendor_tagger.py`). -/
def buildMaster (col : List (Option String)) : List String :=
  uniqueAux [] (dropna col)

/-- A constant similarity function, used to instantiate the parametric
scorer in concrete evaluations. -/
def constScore (v : ℚ) (_ _ : String) : ℚ := v

/-! Basic facts about the embedded arithmetic. -/

theorem qmax_eq_max (a b : ℚ) : qmax a b = max a b := by
  rw [qmax]
  split_ifs with h
  · exact (max_eq_right h).symm
  · exact (max_eq_left (le_of_not_le h)).symm

theorem qmin_eq_min (a b : ℚ) : qmin a b = min a b := by
  rw [qmin]
  split_ifs with h
  · exact (min_eq_left h).symm
  · exact (min_eq_right (le_of_not_le h)).symm

theorem lcsF_le_left : ∀ (n : Nat) (a b : List Char), lcsF n a b ≤ a.length := by
  intro n
  induction n with
  | zero => intro a b; simp [lcsF]
  | succ n ih =>
    intro a b
    match a, b with
    | [], _ => simp [lcsF]
    | _ :: _, [] => simp [lcsF]
    | x :: xs, y :: ys =>
      rw [lcsF]
      split_ifs with h
      · have := ih xs ys
        simp only [List.length_cons]
        omega
      · have h1 := ih (x :: xs) ys
        have h2 := ih xs (y :: ys)
        simp only [List.length_cons] at *
        omega

theorem lcsF_le_right : ∀ (n : Nat) (a b : List Char), lcsF n a b ≤ b.length := by
  intro n
  induction n with
  | zero => intro a b; simp [lcsF]
  | succ n ih =>
    intro a b
    match a, b with
    | [], _ => simp [lcsF]
    | _ :: _, [] => simp [lcsF]
    | x :: xs, y :: ys =>
      rw [lcsF]
      split_ifs with h
      · have := ih xs ys
        simp only [List.length_cons]
        omega
      · have h1 := ih (x :: xs) ys
        have h2 := ih xs (y :: ys)
        simp only [List.length_cons] at *
        omega

theorem lcsF_self : ∀ (a : List Char) (n : Nat), a.length ≤ n → lcsF n a a = a.length := by
  intro a
  induction a with
  | nil => intro n _; cases n <;> simp [lcsF]
  | cons x xs ih =>
    intro n hn
    cases n with
    | zero => simp at hn
    | succ m =>
      rw [lcsF]
      rw [if_pos rfl, ih m (by simp only [List.length_cons] at hn; omega)]
      simp

theorem lcs_self (a : List Char) : lcs a a = a.length :=
  lcsF_self a (a.length + a.length) (by omega)

theorem indelScore_le_100 (a b : List Char) : indelScore a b ≤ 100 := by
  rw [indelScore]
  split_ifs with h
  · exact le_refl _
  · have hl1 : lcs a b ≤ a.length := lcsF_le_left _ a b
    have hl2 : lcs a b ≤ b.length := lcsF_le_right _ a b
    have hpos : (0 : ℚ) < (a.length : ℚ) + (b.length : ℚ) := by
      have : 0 < a.length + b.length := Nat.pos_of_ne_zero h
      exact_mod_cast this
    rw [div_le_iff₀ hpos]
    have c1 : (lcs a b : ℚ) ≤ (a.length : ℚ) := by exact_mod_cast hl1
    have c2 : (lcs a b : ℚ) ≤ (b.length : ℚ) := by exact_mod_cast hl2
    linarith

theorem indelScore_nonneg (a b : List Char) : 0 ≤ indelScore a b := by
  rw [indelScore]
  split_ifs with h
  · norm_num
  · have hpos : (0 : ℚ) < (a.length : ℚ) + (b.length : ℚ) := by
      have : 0 < a.length + b.length := Nat.pos_of_ne_zero h
      exact_mod_cast this
    have : (0 : ℚ) ≤ (lcs a b : ℚ) := by positivity
    positivity

theorem indelScore_self (a : List Char) (ha : a ≠ []) : indelScore a a = 100 := by
  rw [indelScore]
  have h0 : a.length ≠ 0 := by
    simpa using List.length_pos.mpr ha |>.ne'
  split_ifs with h
  · omega
  · rw [lcs_self]
    have hne : (a.length : ℚ) + (a.length : ℚ) ≠ 0 := by
      have : 0 < a.length := Nat.pos_of_ne_zero h0
      have : (0 : ℚ) < (a.length : ℚ) := by exact_mod_cast this
      linarith
    rw [div_eq_iff hne]
    ring

theorem foldl_qmax_init_le : ∀ (l : List ℚ) (init : ℚ), init ≤ l.foldl qmax init := by
  intro l
  induction l with
  | nil => intro init; simp
  | cons x xs ih =>
    intro init
    rw [List.foldl_cons]
    exact le_trans (by rw [qmax_eq_max]; exact le_max_left _ _) (ih (qmax init x))

theorem mem_le_foldl_qmax : ∀ (l : List ℚ) (init x : ℚ), x ∈ l → x ≤ l.foldl qmax init := by
  intro l
  induction l with
  | nil => intro init x hx; simp at hx
  | cons y ys ih =>
    intro init x hx
    rcases List.mem_cons.mp hx with h | h
    · subst h
      rw [List.foldl_cons]
      exact le_trans (by rw [qmax_eq_max]; exact le_max_right _ _) (foldl_qmax_init_le ys _)
    · rw [List.foldl_cons]
      exact ih _ x h

theorem foldl_qmax_le : ∀ (l : List ℚ) (init M : ℚ), init ≤ M → (∀ x ∈ l, x ≤ M) →
    l.foldl qmax init ≤ M := by
  intro l
  induction l with
  | nil => intro init M h _; simpa using h
  | cons y ys ih =>
    intro init M h hall
    rw [List.foldl_cons]
    refine ih _ M ?_ fun x hx => hall x (List.mem_cons_of_mem _ hx)
    rw [qmax_eq_max, max_le_iff]
    exact ⟨h, hall y (List.mem_cons_self _ _)⟩

theorem substrings_self_mem (l : List Char) : l ∈ substrings l := by
  rw [substrings]
  exact List.mem_flatMap.mpr
    ⟨l, (List.mem_tails _ _).mpr (List.suffix_refl l), (List.mem_inits _ _).mpr (List.prefix_refl l)⟩

theorem partScore_self (c : String) : partScore c c = 100 := by
  rw [partScore]
  simp only [le_refl, if_true]
  split_ifs with h
  · rfl
  · have hne : c.data ≠ [] := fun hnil => h (by rw [hnil]; rfl)
    refine le_antisymm ?_ ?_
    · refine foldl_qmax_le _ 0 100 (by norm_num) ?_
      intro x hx
      rcases List.mem_map.mp hx with ⟨w, _, rfl⟩
      exact indelScore_le_100 _ _
    · refine le_of_eq_of_le (indelScore_self c.data hne).symm ?_
      exact mem_le_foldl_qmax _ 0 _
        (List.mem_map.mpr ⟨c.data, substrings_self_mem c.data, rfl⟩)

theorem foldl_indel_le (a : List Char) (l : List (List Char)) :
    List.foldl qmax 0 (List.map (indelScore a) l) ≤ 100 := by
  refine foldl_qmax_le _ 0 100 (by norm_num) ?_
  intro x hx
  rcases List.mem_map.mp hx with ⟨w, _, rfl⟩
  exact indelScore_le_100 _ _

theorem partScore_le_100 (s1 s2 : String) : partScore s1 s2 ≤ 100 := by
  rw [partScore]
  split_ifs <;> first | exact foldl_indel_le _ _ | norm_num

/-! Facts about the best-candidate scan of `extractOne`. -/

theorem eoStep_isSome (sc : String → String → ℚ) (q : String)
    (acc : Option (String × ℚ)) (x : String) : (eoStep sc q acc x).isSome := by
  cases acc with
  | none => rfl
  | some bs =>
    obtain ⟨b, t⟩ := bs
    simp only [eoStep]
    split_ifs <;> rfl

theorem eo_foldl_isSome (sc : String → String → ℚ) (q : String) :
    ∀ (l : List String) (acc : Option (String × ℚ)), acc.isSome →
      (l.foldl (eoStep sc q) acc).isSome := by
  intro l
  induction l with
  | nil => intro acc h; simpa using h
  | cons x xs ih =>
    intro acc _
    rw [List.foldl_cons]
    exact ih _ (eoStep_isSome sc q acc x)

theorem extractOne_isSome (sc : String → String → ℚ) (q : String)
    (l : List String) (h : l ≠ []) : (extractOne sc q l).isSome := by
  cases l with
  | nil => exact absurd rfl h
  | cons x xs =>
    rw [extractOne, List.foldl_cons]
    exact eo_foldl_isSome sc q xs _ (eoStep_isSome sc q none x)

theorem eo_foldl_mem (sc : String → String → ℚ) (q : String) :
    ∀ (l : List String) (acc : Option (String × ℚ)) (c : String) (s : ℚ),
      l.foldl (eoStep sc q) acc = some (c, s) →
      acc = some (c, s) ∨ (c ∈ l ∧ s = sc q c) := by
  intro l
  induction l with
  | nil => intro acc c s h; exact Or.inl (by simpa using h)
  | cons x xs ih =>
    intro acc c s h
    rw [List.foldl_cons] at h
    rcases ih _ c s h with hacc | hmem
    · cases acc with
      | none =>
        simp only [eoStep, Option.some.injEq, Prod.mk.injEq] at hacc
        exact Or.inr ⟨hacc.1 ▸ List.mem_cons_self x xs, hacc.2.symm ▸ hacc.1 ▸ rfl⟩
      | some bs =>
        obtain ⟨b, t⟩ := bs
        simp only [eoStep] at hacc
        split_ifs at hacc with hlt
        · simp only [Option.some.injEq, Prod.mk.injEq] at hacc
          exact Or.inr ⟨hacc.1 ▸ List.mem_cons_self x xs, hacc.2.symm ▸ hacc.1 ▸ rfl⟩
        · exact Or.inl hacc
    · exact Or.inr ⟨List.mem_cons_of_mem x hmem.1, hmem.2⟩

theorem eo_foldl_max (sc : String → String → ℚ) (q : String) :
    ∀ (l : List String) (acc : Option (String × ℚ)) (c : String) (s : ℚ),
      l.foldl (eoStep sc q) acc = some (c, s) →
      (∀ x ∈ l, sc q x ≤ s) ∧ (∀ b t, acc = some (b, t) → t ≤ s) := by
  intro l
  induction l with
  | nil =>
    intro acc c s h
    refine ⟨by simp, fun b t hacc => ?_⟩
    rw [hacc] at h
    simp only [List.foldl_nil, Option.some.injEq, Prod.mk.injEq] at h
    exact le_of_eq h.2
  | cons x xs ih =>
    intro acc c s h
    rw [List.foldl_cons] at h
    obtain ⟨hxs, hstep⟩ := ih _ c s h
    have hx : sc q x ≤ s := by
      cases acc with
      | none => exact hstep x (sc q x) rfl
      | some bs =>
        obtain ⟨b, t⟩ := bs
        by_cases hlt : t < sc q x
        · exact hstep x (sc q x) (by simp [eoStep, if_pos hlt])
        · exact le_trans (not_lt.mp hlt) (hstep b t (by simp [eoStep, if_neg hlt]))
    refine ⟨fun y hy => ?_, fun b t hacc => ?_⟩
    · rcases List.mem_cons.mp hy with rfl | hmem
      · exact hx
      · exact hxs y hmem
    · subst hacc
      by_cases hlt : t < sc q x
      · exact le_trans (le_of_lt hlt) (hstep x (sc q x) (by simp [eoStep, if_pos hlt]))
      · exact hstep b t (by simp [eoStep, if_neg hlt])

theorem extractOne_mem (sc : String → String → ℚ) (q : String) (l : List String)
    (c : String) (s : ℚ) (h : extractOne sc q l = some (c, s)) :
    c ∈ l ∧ s = sc q c := by
  rcases eo_foldl_mem sc q l none c s h with h' | h'
  · simp at h'
  · exact h'

theorem extractOne_max (sc : String → String → ℚ) (q : String) (l : List String)
    (c : String) (s : ℚ) (h : extractOne sc q l = some (c, s)) :
    ∀ x ∈ l, sc q x ≤ s :=
  (eo_foldl_max sc q l none c s h).1

/-! Facts about the maximum selection inside `get_close_matches1`. -/

theorem gcmStep_isSome (sim : String → String → ℚ) (word : String)
    (acc : Option String) (x : String) : (gcmStep sim word acc x).isSome := by
  cases acc with
  | none => rfl
  | some b =>
    simp only [gcmStep]
    split_ifs <;> rfl

theorem gcm_foldl_isSome (sim : String → String → ℚ) (word : String) :
    ∀ (l : List String) (acc : Option String), acc.isSome →
      (l.foldl (gcmStep sim word) acc).isSome := by
  intro l
  induction l with
  | nil => intro acc h; simpa using h
  | cons x xs ih =>
    intro acc _
    rw [List.foldl_cons]
    exact ih _ (gcmStep_isSome sim word acc x)

theorem bestBy_isSome (sim : String → String → ℚ) (word : String)
    (l : List String) (h : l ≠ []) : (bestBy sim word l).isSome := by
  cases l with
  | nil => exact absurd rfl h
  | cons x xs =>
    rw [bestBy, List.foldl_cons]
    exact gcm_foldl_isSome sim word xs _ (gcmStep_isSome sim word none x)

theorem gcm_foldl_mem (sim : String → String → ℚ) (word : String) :
    ∀ (l : List String) (acc : Option String) (b : String),
      l.foldl (gcmStep sim word) acc = some b → acc = some b ∨ b ∈ l := by
  intro l
  induction l with
  | nil => intro acc b h; exact Or.inl (by simpa using h)
  | cons x xs ih =>
    intro acc b h
    rw [List.foldl_cons] at h
    rcases ih _ b h with hacc | hmem
    · cases acc with
      | none =>
        simp only [gcmStep, Option.some.injEq] at hacc
        exact Or.inr (hacc ▸ List.mem_cons_self x xs)
      | some a =>
        simp only [gcmStep] at hacc
        split_ifs at hacc with hcond
        · simp only [Option.some.injEq] at hacc
          exact Or.inr (hacc ▸ List.mem_cons_self x xs)
        · exact Or.inl hacc
    · exact Or.inr (List.mem_cons_of_mem x hmem)

theorem bestBy_mem (sim : String → String → ℚ) (word : String)
    (l : List String) (b : String) (h : bestBy sim word l = some b) : b ∈ l := by
  rcases gcm_foldl_mem sim word l none b h with h' | h'
  · simp at h'
  · exact h'

/-- Strict improvement in the key order `(sim · word, ·)` is
asymmetric. -/
theorem gcm_beats_asymm (sim : String → String → ℚ) (word : String) (x a : String)
    (h : sim a word < sim x word ∨ (sim a word = sim x word ∧ a < x)) :
    ¬ (sim x word < sim a word ∨ (sim x word = sim a word ∧ x < a)) := by
  push_neg
  rcases h with hlt | ⟨heq, hlt⟩
  · refine ⟨le_of_lt hlt, fun he => ?_⟩
    rw [he] at hlt
    exact absurd hlt (lt_irrefl _)
  · exact ⟨le_of_eq heq, fun _ => le_of_lt hlt⟩

/-- The key order is transitive: if `a` is not beaten by `x` and `b` is
not beaten by `a`, then `b` is not beaten by `x` (candidates are compared
as the pairs `(sim · word, ·)` with the string order breaking ties). -/
theorem gcm_beats_nontrans (sim : String → String → ℚ) (word : String) (x a b : String)
    (h1 : ¬ (sim a word < sim x word ∨ (sim a word = sim x word ∧ a < x)))
    (h2 : ¬ (sim b word < sim a word ∨ (sim b word = sim a word ∧ b < a))) :
    ¬ (sim b word < sim x word ∨ (sim b word = sim x word ∧ b < x)) := by
  push_neg at h1 h2 ⊢
  obtain ⟨h1a, h1b⟩ := h1
  obtain ⟨h2a, h2b⟩ := h2
  refine ⟨le_trans h1a h2a, fun heq => ?_⟩
  have hax : sim a word = sim x word := le_antisymm (heq ▸ h2a) h1a
  have hba : sim b word = sim a word := heq.trans hax.symm
  exact le_trans (h1b hax) (h2b hba)

theorem gcm_foldl_max (sim : String → String → ℚ) (word : String) :
    ∀ (l : List String) (acc : Option String) (b : String),
      l.foldl (gcmStep sim word) acc = some b →
      (∀ x ∈ l, ¬ (sim b word < sim x word ∨ (sim b word = sim x word ∧ b < x))) ∧
      (∀ a, acc = some a → ¬ (sim b word < sim a word ∨ (sim b word = sim a word ∧ b < a))) := by
  intro l
  induction l with
  | nil =>
    intro acc b h
    refine ⟨by simp, fun a hacc => ?_⟩
    rw [hacc] at h
    simp only [List.foldl_nil, Option.some.injEq] at h
    subst h
    intro hcon
    rcases hcon with h | h
    · exact absurd h (lt_irrefl _)
    · exact absurd h.2 (lt_irrefl _)
  | cons x xs ih =>
    intro acc b h
    rw [List.foldl_cons] at h
    obtain ⟨hxs, hstep⟩ := ih _ b h
    have hx : ¬ (sim b word < sim x word ∨ (sim b word = sim x word ∧ b < x)) := by
      cases acc with
      | none => exact hstep x rfl
      | some a =>
        by_cases hcond : sim a word < sim x word ∨ (sim a word = sim x word ∧ a < x)
        · exact hstep x (by simp only [gcmStep]; rw [if_pos hcond])
        · exact gcm_beats_nontrans sim word x a b hcond
            (hstep a (by simp only [gcmStep]; rw [if_neg hcond]))
    refine ⟨fun y hy => ?_, fun a hacc => ?_⟩
    · rcases List.mem_cons.mp hy with rfl | hmem
      · exact hx
      · exact hxs y hmem
    · subst hacc
      by_cases hcond : sim a word < sim x word ∨ (sim a word = sim x word ∧ a < x)
      · exact gcm_beats_nontrans sim word a x b
          (gcm_beats_asymm sim word x a hcond)
          (hstep x (by simp only [gcmStep]; rw [if_pos hcond]))
      · exact hstep a (by simp only [gcmStep]; rw [if_neg hcond])

theorem bestBy_max (sim : String → String → ℚ) (word : String)
    (l : List String) (b : String) (h : bestBy sim word l = some b) :
    ∀ x ∈ l, ¬ (sim b word < sim x word ∨ (sim b word = sim x word ∧ b < x)) :=
  (gcm_foldl_max sim word l none b h).1

/-- Lowering the cutoff of the degraded path cannot change a successful
best match: every possibility admitted by the lower cutoff but not the
higher one scores strictly below the incumbent. -/
theorem bestBy_filter_mono (sim : String → String → ℚ) (word : String)
    (poss : List String) (c1 c2 : ℚ) (hc : c2 ≤ c1) (b : String)
    (hb : bestBy sim word (poss.filter fun x => decide (c1 ≤ sim x word)) = some b) :
    bestBy sim word (poss.filter fun x => decide (c2 ≤ sim x word)) = some b := by
  have hbfilter := List.mem_filter.mp (bestBy_mem _ _ _ _ hb)
  have hb1 : c1 ≤ sim b word := of_decide_eq_true hbfilter.2
  have hb2mem : b ∈ poss.filter fun x => decide (c2 ≤ sim x word) :=
    List.mem_filter.mpr ⟨hbfilter.1, decide_eq_true (le_trans hc hb1)⟩
  obtain ⟨b', hb'⟩ := Option.isSome_iff_exists.mp
    (bestBy_isSome _ _ _ (List.ne_nil_of_mem hb2mem))
  have h1 : ¬ (sim b' word < sim b word ∨ (sim b' word = sim b word ∧ b' < b)) :=
    bestBy_max _ _ _ _ hb' b hb2mem
  have hb'filter := List.mem_filter.mp (bestBy_mem _ _ _ _ hb')
  have h2 : ¬ (sim b word < sim b' word ∨ (sim b word = sim b' word ∧ b < b')) := by
    by_cases hcut : c1 ≤ sim b' word
    · exact bestBy_max _ _ _ _ hb b' (List.mem_filter.mpr ⟨hb'filter.1, decide_eq_true hcut⟩)
    · push_neg at hcut
      intro hcon
      rcases hcon with hlt | ⟨heq, _⟩
      · exact absurd (lt_trans (lt_of_le_of_lt hb1 hlt) hcut) (lt_irrefl _)
      · exact absurd (lt_of_le_of_lt (heq ▸ hb1) hcut) (lt_irrefl _)
  push_neg at h1 h2
  have hss : sim b' word = sim b word := le_antisymm h2.1 h1.1
  have hbb : b' = b := le_antisymm (h2.2 hss.symm) (h1.2 hss)
  rw [← hbb]
  exact hb'

/-! Facts about the master-list construction. -/

theorem uniqueAux_mem : ∀ (l seen : List String) (y : String),
    y ∈ uniqueAux seen l ↔ (y ∈ l ∧ y ∉ seen) := by
  intro l
  induction l with
  | nil => intro seen y; simp [uniqueAux]
  | cons x xs ih =>
    intro seen y
    rw [uniqueAux]
    split_ifs with hx
    · rw [ih]
      constructor
      · rintro ⟨hyl, hys⟩
        exact ⟨List.mem_cons_of_mem _ hyl, hys⟩
      · rintro ⟨hyl, hys⟩
        rcases List.mem_cons.mp hyl with rfl | h
        · exact absurd hx hys
        · exact ⟨h, hys⟩
    · constructor
      · intro hy
        rcases List.mem_cons.mp hy with rfl | h
        · exact ⟨List.mem_cons_self _ _, hx⟩
        · have hm := (ih (x :: seen) y).mp h
          exact ⟨List.mem_cons_of_mem _ hm.1, fun hys => hm.2 (List.mem_cons_of_mem _ hys)⟩
      · rintro ⟨hyl, hys⟩
        rcases List.mem_cons.mp hyl with rfl | h
        · exact List.mem_cons_self _ _
        · by_cases hyx : y = x
          · subst hyx
            exact List.mem_cons_self _ _
          · refine List.mem_cons_of_mem _ ((ih (x :: seen) y).mpr ⟨h, fun hm => ?_⟩)
            rcases List.mem_cons.mp hm with h' | h'
            · exact hyx h'
            · exact hys h'

theorem uniqueAux_nodup : ∀ (l seen : List String), (uniqueAux seen l).Nodup := by
  intro l
  induction l with
  | nil => intro seen; simp [uniqueAux]
  | cons x xs ih =>
    intro seen
    rw [uniqueAux]
    split_ifs with hx
    · exact ih seen
    · rw [List.nodup_cons]
      exact ⟨fun hmem => ((uniqueAux_mem xs (x :: seen) x).mp hmem).2 (List.mem_cons_self _ _),
        ih (x :: seen)⟩

theorem uniqueAux_sublist : ∀ (l seen : List String), List.Sublist (uniqueAux seen l) l := by
  intro l
  induction l with
  | nil => intro seen; simp [uniqueAux]
  | cons x xs ih =>
    intro seen
    rw [uniqueAux]
    split_ifs with hx
    · exact (ih seen).trans (List.sublist_cons_self x xs)
    · exact (ih (x :: seen)).cons₂ x

theorem uniqueAux_pairwise_firstIdx : ∀ (l seen : List String),
    (uniqueAux seen l).Pairwise (fun a b => l.indexOf a < l.indexOf b) := by
  intro l
  induction l with
  | nil => intro seen; simp [uniqueAux]
  | cons x xs ih =>
    intro seen
    rw [uniqueAux]
    split_ifs with hx
    · refine List.Pairwise.imp_of_mem ?_ (ih seen)
      intro a b ha hb hab
      have hax : x ≠ a := fun he =>
        ((uniqueAux_mem xs seen a).mp ha).2 (he ▸ hx)
      have hbx : x ≠ b := fun he =>
        ((uniqueAux_mem xs seen b).mp hb).2 (he ▸ hx)
      rw [List.indexOf_cons_ne _ hax, List.indexOf_cons_ne _ hbx]
      exact Nat.succ_lt_succ hab
    · rw [List.pairwise_cons]
      constructor
      · intro b hb
        have hbx : x ≠ b := fun he =>
          ((uniqueAux_mem xs (x :: seen) b).mp hb).2 (he ▸ List.mem_cons_self _ _)
        rw [List.indexOf_cons_self, List.indexOf_cons_ne _ hbx]
        exact Nat.succ_pos _
      · refine List.Pairwise.imp_of_mem ?_ (ih (x :: seen))
        intro a b ha hb hab
        have hax : x ≠ a := fun he =>
          ((uniqueAux_mem xs (x :: seen) a).mp ha).2 (he ▸ List.mem_cons_self _ _)
        have hbx : x ≠ b := fun he =>
          ((uniqueAux_mem xs (x :: seen) b).mp hb).2 (he ▸ List.mem_cons_self _ _)
        rw [List.indexOf_cons_ne _ hax, List.indexOf_cons_ne _ hbx]
        exact Nat.succ_lt_succ hab

/-! Bridging facts used by several claims. -/

theorem gpt_match_nil (oracle : Except Unit String) : gpt_match [] oracle = "" := by
  cases oracle with
  | error e => rfl
  | ok resp => simp [gpt_match]

theorem gpt_match_empty_or_mem (master : List String) (oracle : Except Unit String) :
    gpt_match master oracle = "" ∨ gpt_match master oracle ∈ master := by
  cases oracle with
  | error e => exact Or.inl rfl
  | ok resp =>
    simp only [gpt_match]
    split_ifs with h
    · exact Or.inr h
    · exact Or.inl rfl

theorem get_close_matches1_cases (sim : String → String → ℚ) (word : String)
    (poss : List String) (cutoff : ℚ) :
    get_close_matches1 sim word poss cutoff = [] ∨
    ∃ b, get_close_matches1 sim word poss cutoff = [b] ∧ b ∈ poss ∧ cutoff ≤ sim b word := by
  rw [get_close_matches1]
  rcases hb : bestBy sim word (poss.filter fun x => decide (cutoff ≤ sim x word)) with _ | b
  · exact Or.inl rfl
  · have hmem := List.mem_filter.mp (bestBy_mem _ _ _ _ hb)
    exact Or.inr ⟨b, rfl, hmem.1, of_decide_eq_true hmem.2⟩

theorem get_close_matches1_single (sim : String → String → ℚ) (word : String)
    (poss : List String) (cutoff : ℚ) (b : String)
    (h : bestBy sim word (poss.filter fun x => decide (cutoff ≤ sim x word)) = some b) :
    get_close_matches1 sim word poss cutoff = [b] := by
  rw [get_close_matches1, h]

theorem get_close_matches1_single_inv (sim : String → String → ℚ) (word : String)
    (poss : List String) (cutoff : ℚ) (b : String)
    (h : get_close_matches1 sim word poss cutoff = [b]) :
    bestBy sim word (poss.filter fun x => decide (cutoff ≤ sim x word)) = some b := by
  rw [get_close_matches1] at h
  rcases hbb : bestBy sim word (poss.filter fun x => decide (cutoff ≤ sim x word)) with _ | b'
  · rw [hbb] at h
    simp at h
  · rw [hbb] at h
    simp only [List.cons.injEq, and_true] at h
    rw [h]

theorem fuzzy_vendor_empty_or_mem (rfAvail : Bool) (scorer : String → String → ℚ)
    (title : String) (master : List String) (threshold : ℚ) :
    fuzzy_vendor rfAvail scorer title master threshold = "" ∨
    fuzzy_vendor rfAvail scorer title master threshold ∈ master := by
  rw [fuzzy_vendor]
  split_ifs with h
  · rcases heo : extractOne scorer title master with _ | ⟨c, s⟩
    · exact Or.inl rfl
    · dsimp only
      split_ifs with ht
      · exact Or.inr (extractOne_mem _ _ _ _ _ heo).1
      · exact Or.inl rfl
  · exact Or.inl rfl

theorem match_vendor_empty_or_mem (scorer sim : String → String → ℚ) (rfAvail : Bool)
    (name : String) (master : List String) (threshold : ℚ) (u : Option Bool) :
    match_vendor scorer sim rfAvail name master threshold u = "" ∨
    match_vendor scorer sim rfAvail name master threshold u ∈ master := by
  rw [match_vendor]
  split_ifs with hguard hrf
  · exact Or.inl rfl
  · rcases heo : extractOne scorer name master with _ | ⟨c, s⟩
    · exact Or.inl rfl
    · dsimp only
      split_ifs with ht
      · exact Or.inr (extractOne_mem _ _ _ _ _ heo).1
      · exact Or.inl rfl
  · dsimp only
    rcases get_close_matches1_cases sim name master (qmax 0 (qmin 1 (threshold / 100)))
      with hnil | ⟨b, hb, hbmem, _⟩
    · rw [hnil]
      simp
    · rw [hb]
      have hne : ([b] : List String) ≠ [] := by simp
      rw [if_neg hne]
      exact Or.inr hbmem

theorem appMatch_vendor_empty_or_mem (rfAvail : Bool) (scorer : String → String → ℚ)
    (gptA : Bool) (oracle : Except Unit String) (title : String)
    (master : List String) (t : ℚ) :
    (appMatch rfAvail scorer gptA oracle title master t).vendor = "" ∨
    (appMatch rfAvail scorer gptA oracle title master t).vendor ∈ master := by
  rw [appMatch]
  split_ifs with h
  · exact gpt_match_empty_or_mem master oracle
  · exact fuzzy_vendor_empty_or_mem rfAvail scorer title master t

/-! The claims. -/

/-- C1: for every query string, candidate list, threshold, scorer and
similarity behaviour, and oracle behaviour, the result of the match
operation — both `match_vendor` and the per-sheet pipeline with its GPT
fallback — is either the empty string or an exact (case-sensitive) member
of the candidate list; no other value is ever returned. -/
theorem C1_result_empty_or_member (scorer sim : String → String → ℚ)
    (rfAvail gptA : Bool) (oracle : Except Unit String) (name : String)
    (master : List String) (threshold : ℚ) (u : Option Bool) :
    (match_vendor scorer sim rfAvail name master threshold u = "" ∨
      match_vendor scorer sim rfAvail name master threshold u ∈ master) ∧
    ((appMatch rfAvail scorer gptA oracle name master threshold).vendor = "" ∨
      (appMatch rfAvail scorer gptA oracle name master threshold).vendor ∈ master) :=
  ⟨match_vendor_empty_or_mem scorer sim rfAvail name master threshold u,
   appMatch_vendor_empty_or_mem rfAvail scorer gptA oracle name master threshold⟩

/-- C2 counterexample: the oracle step of `gpt_match` strips the reply
before the membership test, so an oracle reply that is not exactly equal
to any entry of the candidate list (here `" A"`, which is not a member of
`["A"]`) can still produce a non-empty result, contradicting the claim
that such a reply always yields the empty string. -/
theorem C2_counterexample :
    (" A" : String) ∉ (["A"] : List String) ∧
    gpt_match ["A"] (Except.ok " A") = "A" ∧
    ("A" : String) ≠ "" := ⟨by decide, by decide, by decide⟩

/-- C2 (amended): if the oracle call raises, or the returned string
**after stripping surrounding whitespace** is not exactly equal to some
entry of the candidate list, the oracle step yields the empty string; in
every case the step returns the empty string or a member, so neither an
invalid string nor the oracle's failure ever reaches the caller. -/
theorem C2_amended_strip_validation (master : List String) (s : String) (e : Unit) :
    gpt_match master (Except.error e) = "" ∧
    (pyStrip s ∉ master → gpt_match master (Except.ok s) = "") ∧
    (gpt_match master (Except.ok s) = "" ∨ gpt_match master (Except.ok s) ∈ master) := by
  refine ⟨rfl, fun h => ?_, gpt_match_empty_or_mem master (Except.ok s)⟩
  simp only [gpt_match]
  rw [if_neg h]

theorem C2_amended_strip_validation_witness :
    gpt_match ["A"] (Except.ok "B") = "" ∧ gpt_match ["A"] (Except.error ()) = "" :=
  ⟨(C2_amended_strip_validation ["A"] "B" ()).2.1 (by decide),
   (C2_amended_strip_validation ["A"] "B" ()).1⟩

/-- C9 counterexample: the master list is built by
`dropna().unique().tolist()`, which removes only missing cells; a
whitespace-only cell `" "` and an empty-string cell `""` survive into the
reference list, contradicting the claim that empty or blank entries are
excluded. (Deduplication and first-seen order do hold on this input.) -/
theorem C9_counterexample :
    buildMaster [some " ", some "", some "A", none, some "A"] = [" ", "", "A"] ∧
    (" " : String) ∈ buildMaster [some " ", some "", some "A", none, some "A"] ∧
    ("" : String) ∈ buildMaster [some " ", some "", some "A", none, some "A"] :=
  ⟨by decide, by decide, by decide⟩

/-- C9 (amended): the reference list built from the vendor column has no
duplicate entries (case-sensitive), is a sublist of the non-missing cell
values in their original order, contains exactly the values of the
non-missing cells, and lists them by strictly increasing position of
first occurrence; only missing (NaN) cells are excluded — empty or
whitespace-only string values, if present, are retained. -/
theorem C9_amended_master_invariants (col : List (Option String)) :
    (buildMaster col).Nodup ∧
    List.Sublist (buildMaster col) (dropna col) ∧
    (∀ x, x ∈ buildMaster col ↔ some x ∈ col) ∧
    (buildMaster col).Pairwise
      (fun a b => (dropna col).indexOf a < (dropna col).indexOf b) := by
  refine ⟨uniqueAux_nodup _ _, uniqueAux_sublist _ _, fun x => ?_,
    uniqueAux_pairwise_firstIdx _ _⟩
  rw [buildMaster, uniqueAux_mem]
  simp [dropna]

/-- C10 counterexample: the oracle reply is stripped before the
membership test, so when a candidate entry itself carries surrounding
whitespace, a reply that coincides with that entry (hence differs from it
only by surrounding whitespace) still yields the empty string rather than
the entry. -/
theorem C10_counterexample :
    (" A " : String) ∈ ([" A "] : List String) ∧
    gpt_match [" A "] (Except.ok " A ") = "" ∧
    (" A " : String) ≠ "" := ⟨by decide, by decide, by decide⟩

/-- C10 (amended): the oracle reply is stripped of surrounding whitespace
before the membership check, so whenever the stripped reply coincides
with an entry of the candidate list (necessarily an entry without
surrounding whitespace of its own), the oracle step returns exactly that
entry. -/
theorem C10_amended_strip_membership (master : List String) (s e : String)
    (he : e ∈ master) (hs : pyStrip s = e) :
    gpt_match master (Except.ok s) = e := by
  simp only [gpt_match]
  rw [hs, if_pos he]

theorem C10_amended_strip_membership_witness :
    gpt_match ["A"] (Except.ok " A ") = "A" :=
  C10_amended_strip_membership ["A"] " A " "A" (by decide) (by decide)

/-- C5: matching with an empty query or an empty candidate list yields
the empty string for every scorer, similarity function, threshold and
path selection, and — for the empty candidate list — for every oracle
configuration of the per-sheet pipeline as well. -/
theorem C5_empty_inputs (scorer sim : String → String → ℚ) (rfAvail gptA : Bool)
    (oracle : Except Unit String) (name : String) (master : List String)
    (threshold : ℚ) (u : Option Bool) :
    match_vendor scorer sim rfAvail "" master threshold u = "" ∧
    match_vendor scorer sim rfAvail name [] threshold u = "" ∧
    (appMatch rfAvail scorer gptA oracle name [] threshold).vendor = "" := by
  refine ⟨?_, ?_, ?_⟩
  · rw [match_vendor, if_pos (Or.inl rfl)]
  · rw [match_vendor, if_pos (Or.inr rfl)]
  · have hfv : fuzzy_vendor rfAvail scorer name [] threshold = "" := by
      rw [fuzzy_vendor]
      split_ifs with h
      · rfl
      · rfl
    rw [appMatch]
    rw [hfv]
    split_ifs with h
    · exact gpt_match_nil oracle
    · rfl

/-- C3 counterexample: matching an exact member of the candidate list at
threshold 0 on the primary path does not always return that member: with
candidates `["ab", "a"]` and query `"a"`, both candidates score 100 under
the partial-ratio scorer (the query is a substring of `"ab"`), and
`extractOne` keeps the first of the equally scored candidates, so the
result is `"ab"`, not the queried member `"a"`. -/
theorem C3_counterexample :
    ("a" : String) ∈ (["ab", "a"] : List String) ∧
    match_vendor partScore (constScore 0) true "a" ["ab", "a"] 0 (some true) = "ab" ∧
    ("ab" : String) ≠ "a" :=
  ⟨by decide, by with_unfolding_all decide, by decide⟩

/-- C3 (amended): on the primary path at threshold 0, matching a member
`c` of the candidate list returns the first candidate attaining the
maximal partial-ratio score; since `c` itself scores 100 and no score
exceeds 100, the result is exactly `c` whenever `c` is the only candidate
scoring 100 (in particular when no other candidate contains `c` as a
near-substring). -/
theorem C3_amended_first_max (sim : String → String → ℚ) (master : List String)
    (c : String) (hc : c ∈ master)
    (hu : ∀ d ∈ master, partScore c d = 100 → d = c) :
    match_vendor partScore sim true c master 0 (some true) = c := by
  by_cases hcq : c = ""
  · subst hcq
    rw [match_vendor, if_pos (Or.inl rfl)]
  · have hguard : ¬ (c = "" ∨ master = []) := by
      rintro (h | h)
      · exact hcq h
      · exact List.ne_nil_of_mem hc h
    rw [match_vendor, if_neg hguard,
      if_pos (show ((some true).getD true && true) = true from rfl)]
    obtain ⟨⟨b, s⟩, heo⟩ := Option.isSome_iff_exists.mp
      (extractOne_isSome partScore c master (List.ne_nil_of_mem hc))
    rw [heo]
    dsimp only
    obtain ⟨hbmem, hbs⟩ := extractOne_mem _ _ _ _ _ heo
    have h100 : partScore c c ≤ s := extractOne_max _ _ _ _ _ heo c hc
    rw [partScore_self] at h100
    have hle : s ≤ 100 := hbs ▸ partScore_le_100 c b
    have hs : s = 100 := le_antisymm hle h100
    rw [if_pos (show (0 : ℚ) ≤ s by rw [hs]; norm_num)]
    exact hu b hbmem (by rw [← hbs, hs])

theorem C3_amended_first_max_witness :
    match_vendor partScore (constScore 0) true "a" ["a"] 0 (some true) = "a" :=
  C3_amended_first_max (constScore 0) ["a"] "a" (List.mem_singleton.mpr rfl)
    (fun _ hd _ => List.mem_singleton.mp hd)

/-- C4: threshold monotonicity — with the scorer and similarity function
held fixed, if matching returns a non-empty result at threshold `t1` then
it also returns a non-empty result (indeed the same one) at any lower
threshold `t2`, on both the primary and the degraded path. -/
theorem C4_threshold_monotone (scorer sim : String → String → ℚ) (rfAvail : Bool)
    (q : String) (master : List String) (t1 t2 : ℚ) (u : Option Bool)
    (hlt : t2 < t1)
    (h1 : match_vendor scorer sim rfAvail q master t1 u ≠ "") :
    match_vendor scorer sim rfAvail q master t2 u ≠ "" := by
  by_cases hguard : q = "" ∨ master = []
  · rw [match_vendor, if_pos hguard] at h1
    exact absurd rfl h1
  · rw [match_vendor, if_neg hguard] at h1
    rw [match_vendor, if_neg hguard]
    by_cases hrf : (u.getD rfAvail && rfAvail) = true
    · rw [if_pos hrf] at h1
      rw [if_pos hrf]
      rcases heo : extractOne scorer q master with _ | ⟨c, s⟩
      · rw [heo] at h1
        exact absurd rfl h1
      · rw [heo] at h1
        dsimp only at h1 ⊢
        by_cases hts : t1 ≤ s
        · rw [if_pos hts] at h1
          rw [if_pos (le_trans (le_of_lt hlt) hts)]
          exact h1
        · rw [if_neg hts] at h1
          exact absurd rfl h1
    · rw [if_neg hrf] at h1
      rw [if_neg hrf]
      dsimp only at h1 ⊢
      have hcc : qmax 0 (qmin 1 (t2 / 100)) ≤ qmax 0 (qmin 1 (t1 / 100)) := by
        rw [qmax_eq_max, qmax_eq_max, qmin_eq_min, qmin_eq_min]
        exact max_le_max le_rfl (min_le_min le_rfl (by linarith))
      rcases get_close_matches1_cases sim q master (qmax 0 (qmin 1 (t1 / 100)))
        with hnil | ⟨b, hb, hbmem, hbcut⟩
      · rw [hnil] at h1
        simp at h1
      · rw [hb] at h1
        have hb2 : get_close_matches1 sim q master (qmax 0 (qmin 1 (t2 / 100))) = [b] :=
          get_close_matches1_single _ _ _ _ _
            (bestBy_filter_mono sim q master _ _ hcc b
              (get_close_matches1_single_inv _ _ _ _ _ hb))
        rw [hb2]
        simpa using h1

theorem C4_threshold_monotone_witness :
    match_vendor (constScore 100) (constScore 0) true "q" ["v"] 0 (some true) ≠ "" :=
  C4_threshold_monotone (constScore 100) (constScore 0) true "q" ["v"] 80 0 (some true)
    (by norm_num) (by with_unfolding_all decide)

/-- C6: on the degraded path the 0–100 threshold is rescaled exactly to
the cutoff `clamp(threshold/100, 0, 1)`; a candidate is returned only if
its similarity already clears that cutoff, and when no candidate clears
the cutoff the degraded path returns the empty string rather than a
best-effort candidate. -/
theorem C6_degraded_cutoff (scorer sim : String → String → ℚ) (rfAvail : Bool)
    (name : String) (master : List String) (t : ℚ) (u : Option Bool)
    (hdeg : (u.getD rfAvail && rfAvail) = false) :
    (match_vendor scorer sim rfAvail name master t u ≠ "" →
      match_vendor scorer sim rfAvail name master t u ∈ master ∧
      qmax 0 (qmin 1 (t / 100)) ≤ sim (match_vendor scorer sim rfAvail name master t u) name) ∧
    ((∀ c ∈ master, sim c name < qmax 0 (qmin 1 (t / 100))) →
      match_vendor scorer sim rfAvail name master t u = "") := by
  have hrf : ¬ (u.getD rfAvail && rfAvail) = true := by
    rw [hdeg]
    exact Bool.false_ne_true
  by_cases hguard : name = "" ∨ master = []
  · rw [match_vendor, if_pos hguard]
    exact ⟨fun h => absurd rfl h, fun _ => rfl⟩
  · rw [match_vendor, if_neg hguard, if_neg hrf]
    dsimp only
    constructor
    · intro hne
      rcases get_close_matches1_cases sim name master (qmax 0 (qmin 1 (t / 100)))
        with hnil | ⟨b, hb, hbmem, hbcut⟩
      · rw [hnil] at hne
        simp at hne
      · rw [hb] at hne ⊢
        have hbne : ([b] : List String) ≠ [] := by simp
        rw [if_neg hbne]
        exact ⟨hbmem, hbcut⟩
    · intro hall
      have hfempty :
          (master.filter fun x => decide (qmax 0 (qmin 1 (t / 100)) ≤ sim x name)) = [] := by
        rw [List.filter_eq_nil_iff]
        intro a ha
        simp only [decide_eq_true_eq, not_le]
        exact hall a ha
      have hgcm : get_close_matches1 sim name master (qmax 0 (qmin 1 (t / 100))) = [] := by
        rw [get_close_matches1, hfempty]
        rfl
      rw [hgcm]
      simp

theorem C6_degraded_cutoff_witness :
    (match_vendor (constScore 0) (constScore 1) false "a" ["b"] 50 none ∈ (["b"] : List String) ∧
      qmax 0 (qmin 1 ((50 : ℚ) / 100)) ≤
        constScore 1 (match_vendor (constScore 0) (constScore 1) false "a" ["b"] 50 none) "a") ∧
    match_vendor (constScore 0) (constScore 0) false "a" ["b"] 50 none = "" :=
  ⟨(C6_degraded_cutoff (constScore 0) (constScore 1) false "a" ["b"] 50 none rfl).1
      (by with_unfolding_all decide),
   (C6_degraded_cutoff (constScore 0) (constScore 0) false "a" ["b"] 50 none rfl).2
      (by intro c hc
          show (0 : ℚ) < qmax 0 (qmin 1 (50 / 100))
          with_unfolding_all decide)⟩

/-- C7: in the per-sheet pipeline the oracle is invoked exactly when the
deterministic RapidFuzz step produced no accepted (non-empty) vendor and
the GPT fallback is configured; whenever the deterministic step accepts a
non-empty candidate, the oracle is never called. The pipeline is a single
straight-line pass: one scorer run, at most one oracle call, no retries. -/
theorem C7_oracle_gating (rfAvail : Bool) (scorer : String → String → ℚ)
    (gptA : Bool) (oracle : Except Unit String) (title : String)
    (master : List String) (t : ℚ) :
    ((appMatch rfAvail scorer gptA oracle title master t).oracleInvoked = true ↔
      (gptA = true ∧ fuzzy_vendor rfAvail scorer title master t = "")) ∧
    (∀ c s, rfAvail = true → extractOne scorer title master = some (c, s) →
      t ≤ s → c ≠ "" →
      (appMatch rfAvail scorer gptA oracle title master t).oracleInvoked = false) := by
  have hmain : ∀ gptA', (appMatch rfAvail scorer gptA' oracle title master t).oracleInvoked = true ↔
      (gptA' = true ∧ fuzzy_vendor rfAvail scorer title master t = "") := by
    intro gptA'
    rw [appMatch]
    by_cases hv : fuzzy_vendor rfAvail scorer title master t = ""
    · rw [hv]
      cases gptA' <;> simp
    · simp [hv]
  constructor
  · exact hmain gptA
  · intro c s hrfA heo hts hc
    have hv : fuzzy_vendor rfAvail scorer title master t = c := by
      rw [fuzzy_vendor, if_pos hrfA, heo]
      dsimp only
      rw [if_pos hts]
    rw [appMatch, hv]
    simp [hc]

theorem C7_oracle_gating_witness :
    (appMatch true (constScore 100) true (Except.ok "x") "q" ["v"] 80).oracleInvoked = false :=
  (C7_oracle_gating true (constScore 100) true (Except.ok "x") "q" ["v"] 80).2 "v" 100 rfl
    (by decide) (by norm_num) (by decide)

/-- C8: the matcher never raises for any inputs — the fallible embedding,
in which the only partial operation of the source (`matches[0]`) is
modelled as a fallible subscript, always returns `Except.ok` with the
total matcher's result, for every query (including empty and
control-character strings), candidate list, threshold, and path. -/
theorem C8_never_raises (scorer sim : String → String → ℚ) (rfAvail : Bool)
    (name : String) (master : List String) (threshold : ℚ) (u : Option Bool) :
    match_vendorE scorer sim rfAvail name master threshold u =
      Except.ok (match_vendor scorer sim rfAvail name master threshold u) := by
  rw [match_vendorE, match_vendor]
  by_cases hguard : name = "" ∨ master = []
  · rw [if_pos hguard, if_pos hguard]
  · rw [if_neg hguard, if_neg hguard]
    by_cases hrf : (u.getD rfAvail && rfAvail) = true
    · rw [if_pos hrf, if_pos hrf]
      rcases heo : extractOne scorer name master with _ | ⟨c, s⟩
      · rfl
      · dsimp only
        by_cases hts : threshold ≤ s
        · rw [if_pos hts, if_pos hts]
        · rw [if_neg hts, if_neg hts]
    · rw [if_neg hrf, if_neg hrf]
      dsimp only
      rcases get_close_matches1_cases sim name master (qmax 0 (qmin 1 (threshold / 100)))
        with hnil | ⟨b, hb, _, _⟩
      · rw [hnil]
        rfl
      · rw [hb]
        have hbne : ([b] : List String) ≠ [] := by simp
        rw [if_neg hbne, if_neg hbne]
        rfl

end DCVT
